import Mathlib

/-!
# Verification of `travis/githubreleases.py`

A shallow embedding of the release-resolution script.  JSON values that the
script manipulates are modelled by `J` (strings and flat string-valued
objects); Python dictionaries by association lists; Python code that can
raise an uncaught exception by `PyResult`.  Network responses are supplied
by explicit oracles (`HResp` for the paginated tag endpoint, `RResp` for
the single-resource release endpoint), so every function of the script
becomes a pure Lean function of the oracle and its inputs.

Conventions:
* `\d` of the regular expression follows Python 3 semantics for a `str`
  pattern without `re.ASCII`: it matches every Unicode decimal digit
  (category Nd), not just ASCII `0-9`.  `pyIsDigit` captures this with
  an explicit code-point range table.
* Python string comparison (used by `list.sort`) is code-point
  lexicographic; it is modelled by `pyStrLtB` below.
* `re.match` with a `$` anchor also matches immediately before a single
  trailing newline; `pyEnd` models this.
-/

/-- A Python dictionary with string values (the fields of a decoded JSON
object that the script ever reads are all strings). -/
abbrev Dict := List (String × String)

/-- A decoded JSON item as it flows through the script: either a bare
string (e.g. a key produced by extending a list with a dict) or an
object. -/
inductive J where
  | s (v : String)
  | obj (fields : Dict)
deriving DecidableEq

/-- First value bound to key `k`, i.e. Python `d[k]` minus the raising
behaviour (`none` models `KeyError` being raised at the call site). -/
def lookup (d : Dict) (k : String) : Option String :=
  match d with
  | [] => none
  | (k', v) :: rest => if k' = k then some v else lookup rest k

/-- Python `d[k] = v` / `d.update({k: v})` on an association list:
replaces the binding in place if present, appends otherwise. -/
def setKey (d : Dict) (k : String) (v : String) : Dict :=
  match d with
  | [] => [(k, v)]
  | (k', v') :: rest => if k' = k then (k, v) :: rest else (k', v') :: setKey rest k v

/-- The keys of a dictionary, in order. -/
def keys (d : Dict) : List String := d.map Prod.fst

/-- Outcome of running a piece of Python code: a value, or an uncaught
exception (identified by the exception class name). -/
inductive PyResult (α : Type) where
  | ok (val : α)
  | exn (e : String)
deriving DecidableEq

def PyResult.map {α β : Type} (f : α → β) : PyResult α → PyResult β
  | .ok a => .ok (f a)
  | .exn e => .exn e

def PyResult.bind {α β : Type} : PyResult α → (α → PyResult β) → PyResult β
  | .ok a, f => f a
  | .exn e, _ => .exn e

/-! ## The version pattern `^R?\d+[\-\.]\d+([\-\.]\d+)?$`

`re.match` of this pattern is deterministic (no backtracking can change
the outcome, because a maximal run of digits is never followed by a token
that could consume a digit), so it is modelled by a straight-line
matcher over the character list. -/

/-- The code points matched by Python 3's `\d` in a `str` pattern
without `re.ASCII`: the Unicode decimal digits (category Nd), as
inclusive code-point ranges. -/
def pyDigitRanges : List (Nat × Nat) := [
  (48, 57), (1632, 1641), (1776, 1785), (1984, 1993),
  (2406, 2415), (2534, 2543), (2662, 2671), (2790, 2799),
  (2918, 2927), (3046, 3055), (3174, 3183), (3302, 3311),
  (3430, 3439), (3558, 3567), (3664, 3673), (3792, 3801),
  (3872, 3881), (4160, 4169), (4240, 4249), (6112, 6121),
  (6160, 6169), (6470, 6479), (6608, 6617), (6784, 6793),
  (6800, 6809), (6992, 7001), (7088, 7097), (7232, 7241),
  (7248, 7257), (42528, 42537), (43216, 43225), (43264, 43273),
  (43472, 43481), (43504, 43513), (43600, 43609), (44016, 44025),
  (65296, 65305), (66720, 66729), (68912, 68921), (69734, 69743),
  (69872, 69881), (69942, 69951), (70096, 70105), (70384, 70393),
  (70736, 70745), (70864, 70873), (71248, 71257), (71360, 71369),
  (71472, 71481), (71904, 71913), (72016, 72025), (72784, 72793),
  (73040, 73049), (73120, 73129), (92768, 92777), (92864, 92873),
  (93008, 93017), (120782, 120831), (123200, 123209), (123632, 123641),
  (125264, 125273), (130032, 130041)]

/-- Python `\d` on one character: a Unicode decimal digit. -/
def pyIsDigit (c : Char) : Bool :=
  pyDigitRanges.any fun p => decide (p.1 ≤ c.toNat ∧ c.toNat ≤ p.2)

/-- An ASCII digit `0-9` (the proper subset of `\d` the amended C10
speaks about). -/
def isAsciiDigit (c : Char) : Bool := decide (48 ≤ c.toNat ∧ c.toNat ≤ 57)

/-- Consume a maximal run of digits (the backtracking-free residue
of a greedy `\d*`). -/
def dropDigits : List Char → List Char
  | [] => []
  | c :: cs => if pyIsDigit c then dropDigits cs else c :: cs

/-- Pattern `\d+`: one or more digits, maximal munch; returns the rest. -/
def matchNum : List Char → Option (List Char)
  | [] => none
  | c :: cs => if pyIsDigit c then some (dropDigits cs) else none

/-- Pattern `[\-\.]`: a single separator character. -/
def matchSep : List Char → Option (List Char)
  | [] => none
  | c :: cs => if c = '-' || c = '.' then some cs else none

/-- Pattern `R?`: strip one leading `R` if present. -/
def stripR : List Char → List Char
  | [] => []
  | c :: cs => if c = 'R' then cs else c :: cs

/-- Python's `$` anchor (no `re.MULTILINE`): matches at the end of the
string, or immediately before a newline that ends the string. -/
def pyEnd : List Char → Bool
  | [] => true
  | [c] => c = '\n'
  | _ :: _ :: _ => false

/-- The tail `([\-\.]\d+)?$` of the pattern. -/
def matchTail (l : List Char) : Bool :=
  if pyEnd l then true
  else
    match matchSep l with
    | none => false
    | some l1 =>
      match matchNum l1 with
      | none => false
      | some l2 => pyEnd l2

/-- The mandatory prefix `R?\d+[\-\.]\d+` of the pattern; returns the
unconsumed rest. -/
def afterMandatory (l : List Char) : Option (List Char) :=
  (matchNum (stripR l)).bind fun l2 => (matchSep l2).bind fun l3 => matchNum l3

/-- The whole `re.match(r'^R?\d+[\-\.]\d+([\-\.]\d+)?$', ·)` as a Boolean. -/
def matchVer (l : List Char) : Bool :=
  match afterMandatory l with
  | none => false
  | some r => matchTail r

def matchesVersion (s : String) : Bool := matchVer s.data

/-! ## Python string comparison and `list.sort(reverse=True)` -/

/-- Python `<` on strings: code-point lexicographic comparison. -/
def pyStrLtB : List Char → List Char → Bool
  | [], [] => false
  | [], _ :: _ => true
  | _ :: _, [] => false
  | c :: cs, d :: ds => if c < d then true else if d < c then false else pyStrLtB cs ds

/-- Insert into a descending-sorted list, keeping it descending. -/
def insertDesc (x : String) : List String → List String
  | [] => [x]
  | y :: ys => if pyStrLtB y.data x.data then x :: y :: ys else y :: insertDesc x ys

/-- Python `list.sort(reverse=True)` on a list of strings (as a function). -/
def sortDesc : List String → List String
  | [] => []
  | x :: xs => insertDesc x (sortDesc xs)

/-! ## `get_all_pages` -/

/-- An HTTP response to a collection `GET`: the status (`ok`), the decoded
body as the sequence of elements that `result.extend(resp.json())`
appends (for a JSON array, its items; for a JSON object — e.g. an error
body — its keys, as strings), and the URL carried by the `next`
link-relation header when present. -/
structure HResp where
  ok : Bool
  body : List J
  next : Option String
deriving DecidableEq

/-- The `while 'next' in resp.links` loop, with explicit fuel bounding
the number of continuation requests (the script itself relies on the
server eventually omitting the link).  Note that, exactly like the
source, the loop never inspects `ok` of a continuation response. -/
def followPages (fetch : String → HResp) : Nat → HResp → List J → List J
  | fuel, resp, acc =>
    match resp.next with
    | none => acc
    | some u =>
      match fuel with
      | 0 => acc
      | f + 1 =>
        let r := fetch u
        followPages fetch f r (acc ++ r.body)

/-- Function `get_all_pages(url)`: `none` models the bare `return` taken when the
first response is not `ok`. -/
def get_all_pages (fetch : String → HResp) (fuel : Nat) (url : String) : Option (List J) :=
  let resp := fetch url
  if resp.ok then some (followPages fetch fuel resp resp.body) else none

/-- A finite chain of successful pages starting at a URL: each page is
`ok`, carries the given items, and links to the next page, the last one
having no `next` link. -/
inductive PageChain (fetch : String → HResp) : String → List (List J) → Prop where
  | last (u : String) (items : List J) :
      fetch u = ⟨true, items, none⟩ → PageChain fetch u [items]
  | step (u : String) (items : List J) (u2 : String) (rest : List (List J)) :
      fetch u = ⟨true, items, some u2⟩ → PageChain fetch u2 rest →
      PageChain fetch u (items :: rest)

/-! ## `get_latest_tag` -/

/-- Python `item[k]` on a decoded JSON item: raises `TypeError` when the
item is not an object, `KeyError` when the key is missing. -/
def pyField (t : J) (k : String) : PyResult String :=
  match t with
  | .s _ => .exn "TypeError"
  | .obj d =>
    match lookup d k with
    | none => .exn "KeyError"
    | some v => .ok v

/-- The list comprehension `[tag['name'] for tag in tags]`: the names of
all tags, or the exception raised at the first ill-formed element. -/
def pyTagNames : List J → PyResult (List String)
  | [] => .ok []
  | t :: ts =>
    match pyField t "name" with
    | .exn e => .exn e
    | .ok n => (pyTagNames ts).map (fun ns => n :: ns)

/-- The final `for tag in tags: if tag['name'] == latest_tag_name: return
tag` loop, falling through to `None`. -/
def findTagWithName (latest : String) : List J → PyResult (Option J)
  | [] => .ok none
  | t :: ts =>
    match pyField t "name" with
    | .exn e => .exn e
    | .ok n => if n = latest then .ok (some t) else findTagWithName latest ts

/-- Function `get_latest_tag(organisation, repo)`, parameterised by the outcome of
its `get_all_pages` call on the tags URL (`none` when that returned
`None`).  `tag_names[0]` on an empty list raises `IndexError`. -/
def get_latest_tag (tags_result : Option (List J)) : PyResult (Option J) :=
  match tags_result with
  | none => .ok none
  | some tags =>
    match pyTagNames tags with
    | .exn e => .exn e
    | .ok names =>
      match sortDesc (names.filter matchesVersion) with
      | [] => .exn "IndexError"
      | latest :: _ => findTagWithName latest tags

/-! ## `get_latest_release`, `latest_release`, `main` -/

/-- The response to the single-resource `releases/latest` `GET`: status
and decoded JSON body. -/
structure RResp where
  ok : Bool
  body : J
deriving DecidableEq

/-- Function `get_latest_release(organisation, repo)`, parameterised by the
response of the release endpoint for that pair. -/
def get_latest_release (r : RResp) : Option J :=
  if r.ok then some r.body else none

/-- Function `latest_release(organisation, repo)`: try the release resource, fall
back to the highest version tag, making the tag dict "somewhat
compatible" by `release.update({'tag_name': release['name']})`.
Calling `.update` on a non-dict raises `AttributeError`. -/
def latest_release (rel : RResp) (tags_result : Option (List J)) : PyResult (Option J) :=
  match get_latest_release rel with
  | some release => .ok (some release)
  | none =>
    match get_latest_tag tags_result with
    | .exn e => .exn e
    | .ok none => .ok none
    | .ok (some t) =>
      match t with
      | .s _ => .exn "AttributeError"
      | .obj d =>
        match lookup d "name" with
        | none => .exn "KeyError"
        | some n => .ok (some (.obj (setKey d "tag_name" n)))

/-- Credential `GITHUB_AUTH`: split the environment value at every colon
(`str.split(':')` keeps empty parts and splits on all occurrences);
absent value means no credential. -/
def splitColon : List Char → List (List Char)
  | [] => [[]]
  | c :: cs =>
    match splitColon cs with
    | [] => [[]]
    | p :: ps => if c = ':' then [] :: p :: ps else (c :: p) :: ps

def GITHUB_AUTH (env : Option String) : Option (List String) :=
  match env with
  | none => none
  | some v => some ((splitColon v.data).map String.mk)

/-- Function `main`, parameterised by the parsed `--tarball` flag and the two
oracle responses; yields the string written to stdout (if any) together
with the return code, or the uncaught exception.  (Named `main'` because
Lean reserves `main` for an executable entry point.) -/
def main' (tarball : Bool) (rel : RResp) (tags_result : Option (List J)) :
    PyResult (Option String × Int) :=
  match latest_release rel tags_result with
  | .exn e => .exn e
  | .ok none => .ok (none, -1)
  | .ok (some release) =>
    if tarball then
      match pyField release "tarball_url" with
      | .exn e => .exn e
      | .ok url => .ok (some url, 0)
    else
      match pyField release "tag_name" with
      | .exn e => .exn e
      | .ok n => .ok (some n, 0)

example : matchesVersion "1.2" = true := by decide
example : matchesVersion "1.10" = true := by decide
example : matchesVersion "R3-1-2" = true := by decide
example : matchesVersion "1.2.3.4" = false := by decide
example : matchesVersion "latest" = false := by decide
example : matchesVersion "v-beta" = false := by decide
example : matchesVersion "1.0\n" = true := by decide
example : matchesVersion "1.0\n\n" = false := by decide
example : matchesVersion "R9" = false := by decide
example : sortDesc ["1.2", "1.10", "2.0"] = ["2.0", "1.2", "1.10"] := by decide
example : sortDesc ["9.0", "10.0"] = ["9.0", "10.0"] := by decide
example : get_latest_tag (some []) = .exn "IndexError" := by decide

/-! ## Dictionary lemmas -/

theorem lookup_append (d e : Dict) (k : String) :
    lookup (d ++ e) k = match lookup d k with
      | some v => some v
      | none => lookup e k := by
  induction d with
  | nil => simp [lookup]
  | cons p rest ih =>
    obtain ⟨k', v'⟩ := p
    by_cases h : k' = k
    · simp [lookup, h]
    · simp [lookup, h, ih]

theorem setKey_absent (d : Dict) (k : String) (v : String) (h : lookup d k = none) :
    setKey d k v = d ++ [(k, v)] := by
  induction d with
  | nil => simp [setKey]
  | cons p rest ih =>
    obtain ⟨k', v'⟩ := p
    by_cases hk : k' = k
    · simp [lookup, hk] at h
    · simp [lookup, hk] at h
      simp [setKey, hk, ih h]

/-! ## The sort picks the lexicographic maximum -/

theorem pyStrLtB_iff : ∀ a b : List Char, pyStrLtB a b = true ↔ a < b
  | [], [] => by
    rw [pyStrLtB]
    constructor
    · intro h
      exact absurd h Bool.false_ne_true
    · intro h
      exact absurd h (lt_irrefl ([] : List Char))
  | [], c :: cs => by
    rw [pyStrLtB]
    exact ⟨fun _ => List.nil_lt_cons c cs, fun _ => rfl⟩
  | a :: as, [] => by
    rw [pyStrLtB]
    constructor
    · intro h
      exact absurd h Bool.false_ne_true
    · intro h
      exact absurd h (List.Lex.not_nil_right _ _)
  | a :: as, b :: bs => by
    rw [pyStrLtB]
    by_cases hab : a < b
    · rw [if_pos hab]
      exact ⟨fun _ => List.Lex.rel hab, fun _ => rfl⟩
    · rw [if_neg hab]
      by_cases hba : b < a
      · rw [if_pos hba]
        constructor
        · intro h
          exact absurd h Bool.false_ne_true
        · intro h
          exfalso
          have h' : List.Lex (fun c d : Char => c < d) (a :: as) (b :: bs) := h
          cases h' with
          | cons h2 => exact lt_irrefl _ hba
          | rel h2 => exact hab h2
      · have hab' : a = b := le_antisymm (le_of_not_lt hba) (le_of_not_lt hab)
        subst hab'
        rw [if_neg hba]
        rw [pyStrLtB_iff as bs]
        constructor
        · intro h
          exact List.Lex.cons h
        · intro h
          have h' : List.Lex (fun c d : Char => c < d) (a :: as) (a :: bs) := h
          cases h' with
          | cons h2 => exact h2
          | rel h2 => exact absurd h2 hab

theorem pyStrLtB_false_iff (a b : List Char) : pyStrLtB a b = false ↔ b ≤ a := by
  rw [← not_lt, ← pyStrLtB_iff]
  cases pyStrLtB a b <;> simp

theorem mem_insertDesc (z x : String) (l : List String) :
    z ∈ insertDesc x l ↔ z = x ∨ z ∈ l := by
  induction l with
  | nil => simp [insertDesc]
  | cons y ys ih =>
    rw [insertDesc]
    cases h : pyStrLtB y.data x.data with
    | true => simp
    | false =>
      rw [if_neg Bool.false_ne_true]
      simp only [List.mem_cons, ih]
      tauto

theorem mem_sortDesc (z : String) (l : List String) : z ∈ sortDesc l ↔ z ∈ l := by
  induction l with
  | nil => simp [sortDesc]
  | cons x xs ih => simp [sortDesc, mem_insertDesc, ih]

/-- Descending sortedness: each element dominates all later ones. -/
def SortedD (l : List String) : Prop :=
  l.Pairwise (fun a b => b.data ≤ a.data)

theorem sortedD_insertDesc (x : String) (l : List String) (h : SortedD l) :
    SortedD (insertDesc x l) := by
  induction l with
  | nil => simp [insertDesc, SortedD]
  | cons y ys ih =>
    rw [SortedD, List.pairwise_cons] at h
    obtain ⟨hy, hys⟩ := h
    rw [insertDesc]
    cases hlt : pyStrLtB y.data x.data with
    | true =>
      rw [if_pos rfl]
      have hyx : y.data ≤ x.data := le_of_lt ((pyStrLtB_iff _ _).mp hlt)
      rw [SortedD, List.pairwise_cons]
      constructor
      · intro z hz
        rcases List.mem_cons.mp hz with rfl | hz
        · exact hyx
        · exact le_trans (hy z hz) hyx
      · rw [List.pairwise_cons]
        exact ⟨hy, hys⟩
    | false =>
      rw [if_neg Bool.false_ne_true]
      have hxy : x.data ≤ y.data := (pyStrLtB_false_iff _ _).mp hlt
      rw [SortedD, List.pairwise_cons]
      constructor
      · intro z hz
        rcases (mem_insertDesc z x ys).mp hz with rfl | hz
        · exact hxy
        · exact hy z hz
      · exact ih hys

theorem sortedD_sortDesc (l : List String) : SortedD (sortDesc l) := by
  induction l with
  | nil => simp [sortDesc, SortedD]
  | cons x xs ih => exact sortedD_insertDesc x (sortDesc xs) ih

theorem sortDesc_head_max (l : List String) (m : String) (r : List String)
    (h : sortDesc l = m :: r) : ∀ z ∈ l, z.data ≤ m.data := by
  intro z hz
  have hmem : z ∈ sortDesc l := (mem_sortDesc z l).mpr hz
  rw [h] at hmem
  have hs := sortedD_sortDesc l
  rw [h] at hs
  simp only [SortedD, List.pairwise_cons] at hs
  rcases List.mem_cons.mp hmem with rfl | hmem
  · exact le_refl _
  · exact hs.1 z hmem

theorem sortDesc_eq_nil (l : List String) : sortDesc l = [] ↔ l = [] := by
  constructor
  · intro h
    cases hl : l with
    | nil => rfl
    | cons x xs =>
      exfalso
      have : x ∈ sortDesc l := (mem_sortDesc x l).mpr (by simp [hl])
      rw [h] at this
      exact absurd this (List.not_mem_nil x)
  · intro h
    simp [h, sortDesc]

/-! ## The first tag carrying the selected name -/

theorem findFirst_spec (tags : List J) (names : List String)
    (hn : pyTagNames tags = .ok names) (latest : String) (hmem : latest ∈ names) :
    ∃ t l1 l2, findTagWithName latest tags = .ok (some t) ∧
      tags = l1 ++ t :: l2 ∧ pyField t "name" = .ok latest ∧
      ∀ u ∈ l1, ∀ k, pyField u "name" = .ok k → k ≠ latest := by
  induction tags generalizing names with
  | nil =>
    simp only [pyTagNames, PyResult.ok.injEq] at hn
    subst hn
    exact absurd hmem (List.not_mem_nil latest)
  | cons t0 ts ih =>
    simp only [pyTagNames] at hn
    cases hf : pyField t0 "name" with
    | exn e =>
      rw [hf] at hn
      simp at hn
    | ok n0 =>
      rw [hf] at hn
      cases hts : pyTagNames ts with
      | exn e =>
        rw [hts] at hn
        simp [PyResult.map] at hn
      | ok ns =>
        rw [hts] at hn
        simp only [PyResult.map, PyResult.ok.injEq] at hn
        subst hn
        by_cases heq : n0 = latest
        · refine ⟨t0, [], ts, ?_, by simp, by rw [hf, heq], by simp⟩
          simp [findTagWithName, hf, heq]
        · have hmem' : latest ∈ ns := by
            rcases List.mem_cons.mp hmem with h | h
            · exact absurd h.symm heq
            · exact h
          obtain ⟨t, l1, l2, hfind, hsplit, hname, hbefore⟩ := ih ns hts hmem'
          refine ⟨t, t0 :: l1, l2, ?_, by simp [hsplit], hname, ?_⟩
          · simp [findTagWithName, hf, heq, hfind]
          · intro u hu k hk
            rcases List.mem_cons.mp hu with rfl | hu
            · rw [hf] at hk
              injection hk with hk
              subst hk
              exact heq
            · exact hbefore u hu k hk

/-- Central selection lemma: with all tag names extractable and at least
one version-like name, `get_latest_tag` returns the first tag bearing
the lexicographically maximal version-like name. -/
theorem latest_tag_selection (tags : List J) (names : List String)
    (hn : pyTagNames tags = .ok names)
    (hne : names.filter matchesVersion ≠ []) :
    ∃ m t l1 l2,
      m ∈ names.filter matchesVersion ∧
      (∀ n ∈ names.filter matchesVersion, n.data ≤ m.data) ∧
      get_latest_tag (some tags) = .ok (some t) ∧
      tags = l1 ++ t :: l2 ∧
      pyField t "name" = .ok m ∧
      (∀ u ∈ l1, ∀ k, pyField u "name" = .ok k → k ≠ m) := by
  cases hs : sortDesc (names.filter matchesVersion) with
  | nil => exact absurd ((sortDesc_eq_nil _).mp hs) hne
  | cons m rest =>
    have hmfilt : m ∈ names.filter matchesVersion := by
      rw [← mem_sortDesc, hs]
      simp
    have hmax : ∀ n ∈ names.filter matchesVersion, n.data ≤ m.data :=
      sortDesc_head_max _ m rest hs
    have hmnames : m ∈ names := (List.mem_filter.mp hmfilt).1
    obtain ⟨t, l1, l2, hfind, hsplit, hname, hbefore⟩ :=
      findFirst_spec tags names hn m hmnames
    refine ⟨m, t, l1, l2, hmfilt, hmax, ?_, hsplit, hname, hbefore⟩
    simp [get_latest_tag, hn, hs, hfind]

/-! ## Pagination -/

theorem pageChain_shape (fetch : String → HResp) (u : String) (pages : List (List J))
    (h : PageChain fetch u pages) :
    ∃ items rest, pages = items :: rest ∧ (fetch u).ok = true ∧ (fetch u).body = items := by
  cases h with
  | last u items hu => exact ⟨items, [], rfl, by rw [hu], by rw [hu]⟩
  | step u items u2 rest hu hrest => exact ⟨items, rest, rfl, by rw [hu], by rw [hu]⟩

theorem followPages_chain (fetch : String → HResp) (u : String) (pages : List (List J))
    (hchain : PageChain fetch u pages) :
    ∀ (fuel : Nat) (acc : List J), pages.tail.length ≤ fuel →
      followPages fetch fuel (fetch u) acc = acc ++ pages.tail.flatten := by
  induction hchain with
  | last u items hu =>
    intro fuel acc _
    rw [hu]
    cases fuel with
    | zero =>
      have hstop : followPages fetch 0 ⟨true, items, none⟩ acc = acc := rfl
      rw [hstop]
      simp
    | succ f =>
      have hstop : followPages fetch (f + 1) ⟨true, items, none⟩ acc = acc := rfl
      rw [hstop]
      simp
  | step u items u2 rest hu hrest ih =>
    intro fuel acc hfuel
    obtain ⟨items2, rest2, hre, hok2, hbody2⟩ := pageChain_shape fetch u2 rest hrest
    cases fuel with
    | zero =>
      exfalso
      rw [hre] at hfuel
      simp at hfuel
    | succ f =>
      rw [hu]
      have hstep : followPages fetch (f + 1) ⟨true, items, some u2⟩ acc
          = followPages fetch f (fetch u2) (acc ++ (fetch u2).body) := rfl
      rw [hstep, hbody2]
      have hf2 : rest.tail.length ≤ f := by
        rw [hre] at hfuel ⊢
        simp only [List.tail_cons, List.length_cons] at hfuel ⊢
        omega
      rw [ih f (acc ++ items2) hf2, hre]
      simp [List.append_assoc]

/-- C7: for every finite chain of successful pages (each linking to the
next, the last without a next link), `get_all_pages` returns the
concatenation of all pages' decoded items in page order; its length is
the sum of the page sizes (3×N for three pages of N items each). -/
theorem get_all_pages_concats_pages (fetch : String → HResp) (url : String)
    (pages : List (List J)) (fuel : Nat)
    (hchain : PageChain fetch url pages) (hfuel : pages.tail.length ≤ fuel) :
    get_all_pages fetch fuel url = some pages.flatten ∧
    pages.flatten.length = (pages.map List.length).sum := by
  obtain ⟨items, rest, hpg, hok, hbody⟩ := pageChain_shape fetch url pages hchain
  constructor
  · simp only [get_all_pages]
    rw [if_pos hok]
    rw [followPages_chain fetch url pages hchain fuel (fetch url).body hfuel]
    rw [hbody, hpg]
    simp
  · simp

/-- Three successful pages of two items each, linked 1 → 2 → 3. -/
def fetch3 : String → HResp := fun u =>
  if u = "p1" then ⟨true, [J.s "a1", J.s "a2"], some "p2"⟩
  else if u = "p2" then ⟨true, [J.s "b1", J.s "b2"], some "p3"⟩
  else ⟨true, [J.s "c1", J.s "c2"], none⟩

/-- C7 witness: the three-page scenario yields exactly 3×2 items in page
order. -/
theorem get_all_pages_concats_pages_witness :
    get_all_pages fetch3 2 "p1" =
      some [J.s "a1", J.s "a2", J.s "b1", J.s "b2", J.s "c1", J.s "c2"] ∧
    ([[J.s "a1", J.s "a2"], [J.s "b1", J.s "b2"], [J.s "c1", J.s "c2"]].map
      List.length).sum = 3 * 2 := by
  have hchain : PageChain fetch3 "p1"
      [[J.s "a1", J.s "a2"], [J.s "b1", J.s "b2"], [J.s "c1", J.s "c2"]] := by
    refine PageChain.step _ _ "p2" _ (by decide) ?_
    refine PageChain.step _ _ "p3" _ (by decide) ?_
    exact PageChain.last _ _ (by decide)
  have h := get_all_pages_concats_pages fetch3 "p1"
    [[J.s "a1", J.s "a2"], [J.s "b1", J.s "b2"], [J.s "c1", J.s "c2"]] 2 hchain (by decide)
  exact ⟨h.1, by decide⟩

/-- A first page that is ok and links onward; the continuation request
fails with a JSON error body (whose keys are what `list.extend` would
append). -/
def fetchMidFail : String → HResp := fun u =>
  if u = "t1" then ⟨true, [J.obj [("name", "1.0")]], some "t2"⟩
  else ⟨false, [J.s "message", J.s "documentation_url"], none⟩

/-- C6: contrary to the claim, a non-success continuation page does not
make `get_all_pages` discard the accumulated items and yield the empty
result: the loop never checks `ok` on continuation responses, so the
error body's decoded content is appended to the partial item list and
returned. -/
theorem get_all_pages_keeps_failed_page_body :
    get_all_pages fetchMidFail 5 "t1" =
      some [J.obj [("name", "1.0")], J.s "message", J.s "documentation_url"] ∧
    get_all_pages fetchMidFail 5 "t1" ≠ none := by
  exact ⟨by decide, by decide⟩

/-! ## Version-tag selection claims -/

/-- C1: whenever the tag collection was fetched successfully, every tag
has a name, and at least one name matches the version pattern,
`get_latest_tag` returns a tag whose name is the lexicographically
maximal matching name (pure code-point string order), and among tags
bearing that name it returns the first in the original input order. -/
theorem get_latest_tag_picks_lex_max (tags : List J) (names : List String)
    (hn : pyTagNames tags = .ok names)
    (hne : names.filter matchesVersion ≠ []) :
    ∃ m t l1 l2,
      m ∈ names.filter matchesVersion ∧
      (∀ n ∈ names.filter matchesVersion, n.data ≤ m.data) ∧
      get_latest_tag (some tags) = .ok (some t) ∧
      tags = l1 ++ t :: l2 ∧
      pyField t "name" = .ok m ∧
      ∀ u ∈ l1, ∀ k, pyField u "name" = .ok k → k ≠ m :=
  latest_tag_selection tags names hn hne

/-- The two-tag repository of the claim: tags 9.0 and 10.0. -/
def tags910 : List J := [J.obj [("name", "9.0")], J.obj [("name", "10.0")]]

/-- C1 witness: on the candidate set 9.0 and 10.0 the selected tag is
9.0 (lexicographic, not numeric). -/
theorem get_latest_tag_picks_lex_max_witness :
    (pyTagNames tags910 = .ok ["9.0", "10.0"]) ∧
    (["9.0", "10.0"].filter matchesVersion ≠ []) ∧
    (∃ m t l1 l2,
      m ∈ ["9.0", "10.0"].filter matchesVersion ∧
      (∀ n ∈ ["9.0", "10.0"].filter matchesVersion, n.data ≤ m.data) ∧
      get_latest_tag (some tags910) = .ok (some t) ∧
      tags910 = l1 ++ t :: l2 ∧
      pyField t "name" = .ok m ∧
      ∀ u ∈ l1, ∀ k, pyField u "name" = .ok k → k ≠ m) ∧
    get_latest_tag (some tags910) = .ok (some (J.obj [("name", "9.0")])) :=
  ⟨by decide, by decide,
   get_latest_tag_picks_lex_max tags910 ["9.0", "10.0"] (by decide) (by decide),
   by decide⟩

/-- C3: contrary to the claim, a successfully fetched tag collection that
is empty or has no version-like names does not produce a recoverable
"not found" result: `tag_names[0]` raises an uncaught `IndexError`. -/
theorem get_latest_tag_raises_on_no_match :
    get_latest_tag (some []) = .exn "IndexError" ∧
    get_latest_tag (some [J.obj [("name", "latest")], J.obj [("name", "nightly")]]) =
      .exn "IndexError" :=
  ⟨by decide, by decide⟩

/-! ## Resolver claims -/

theorem lookup_setKey_ne (d : Dict) (k k' v : String) (h : k' ≠ k) :
    lookup (setKey d k v) k' = lookup d k' := by
  induction d with
  | nil =>
    have hk : k ≠ k' := Ne.symm h
    simp [setKey, lookup, hk]
  | cons p rest ih =>
    obtain ⟨a, b⟩ := p
    by_cases hak : a = k
    · subst hak
      simp [setKey, lookup, Ne.symm h]
    · simp only [setKey, if_neg hak, lookup]
      by_cases hak' : a = k'
      · simp [hak']
      · simp [hak', ih]

theorem lookup_setKey_self (d : Dict) (k v : String) :
    lookup (setKey d k v) k = some v := by
  induction d with
  | nil => simp [setKey, lookup]
  | cons p rest ih =>
    obtain ⟨a, b⟩ := p
    by_cases hak : a = k
    · subst hak
      simp [setKey, lookup]
    · simp [setKey, hak, lookup, ih]

/-- C2: if the latest-release resource lookup succeeds, `latest_release`
returns its decoded JSON body verbatim and is independent of the tag
lookup; if it fails, `latest_release` returns exactly the tag selector's
result, with `tag_name` set to the selected tag's name and nothing else
changed (in particular no `tarball_url` added), or `None` when the
selector yields no tag. -/
theorem latest_release_fallback_contract (rel : RResp) (tags_result : Option (List J)) :
    (rel.ok = true → ∀ other : Option (List J),
      latest_release rel other = .ok (some rel.body)) ∧
    (rel.ok = false → get_latest_tag tags_result = .ok none →
      latest_release rel tags_result = .ok none) ∧
    (rel.ok = false → ∀ d n, get_latest_tag tags_result = .ok (some (.obj d)) →
      lookup d "name" = some n →
      latest_release rel tags_result = .ok (some (.obj (setKey d "tag_name" n))) ∧
      lookup (setKey d "tag_name" n) "tarball_url" = lookup d "tarball_url") := by
  refine ⟨?_, ?_, ?_⟩
  · intro hok other
    simp [latest_release, get_latest_release, hok]
  · intro hok htag
    simp [latest_release, get_latest_release, hok, htag]
  · intro hok d n htag hname
    constructor
    · simp [latest_release, get_latest_release, hok, htag, hname]
    · exact lookup_setKey_ne d "tag_name" "tarball_url" n (by decide)

/-- The body of a successful release-resource response. -/
def relBody : J := J.obj [("tag_name", "2.0"), ("tarball_url", "T")]

/-- C2 witness: all three branches of the resolver contract at concrete
inputs. -/
theorem latest_release_fallback_contract_witness :
    latest_release ⟨true, relBody⟩ (some []) = .ok (some relBody) ∧
    latest_release ⟨false, J.s "err"⟩ none = .ok none ∧
    latest_release ⟨false, J.s "err"⟩ (some [J.obj [("name", "1.0")]]) =
      .ok (some (.obj (setKey [("name", "1.0")] "tag_name" "1.0"))) ∧
    lookup (setKey [("name", "1.0")] "tag_name" "1.0") "tarball_url" =
      lookup [("name", "1.0")] "tarball_url" :=
  ⟨(latest_release_fallback_contract ⟨true, relBody⟩ (some [])).1 rfl (some []),
   (latest_release_fallback_contract ⟨false, J.s "err"⟩ none).2.1 rfl rfl,
   ((latest_release_fallback_contract ⟨false, J.s "err"⟩
      (some [J.obj [("name", "1.0")]])).2.2 rfl [("name", "1.0")] "1.0" rfl rfl).1,
   ((latest_release_fallback_contract ⟨false, J.s "err"⟩
      (some [J.obj [("name", "1.0")]])).2.2 rfl [("name", "1.0")] "1.0" rfl rfl).2⟩

/-- C8: the tag-derived release record synthesized by the fallback path
keeps every field of the selected tag present and unchanged, appends
exactly the one new field tag_name (bound to the tag's name), and
introduces no tarball_url field. -/
theorem fallback_release_preserves_tag_fields (rel : RResp) (tags_result : Option (List J))
    (d : Dict) (n : String)
    (hok : rel.ok = false)
    (hsel : get_latest_tag tags_result = .ok (some (.obj d)))
    (hname : lookup d "name" = some n)
    (hfresh : lookup d "tag_name" = none) :
    ∃ r : Dict, latest_release rel tags_result = .ok (some (.obj r)) ∧
      r = d ++ [("tag_name", n)] ∧
      (∀ k, k ≠ "tag_name" → lookup r k = lookup d k) ∧
      lookup r "tag_name" = some n ∧
      keys r = keys d ++ ["tag_name"] ∧
      lookup r "tarball_url" = lookup d "tarball_url" := by
  refine ⟨setKey d "tag_name" n, ?_, ?_, ?_, ?_, ?_, ?_⟩
  · simp [latest_release, get_latest_release, hok, hsel, hname]
  · exact setKey_absent d "tag_name" n hfresh
  · intro k hk
    exact lookup_setKey_ne d "tag_name" k n hk
  · exact lookup_setKey_self d "tag_name" n
  · rw [setKey_absent d "tag_name" n hfresh]
    simp [keys]
  · exact lookup_setKey_ne d "tag_name" "tarball_url" n (by decide)

/-- C8 witness: the frame property at a concrete two-field tag. -/
theorem fallback_release_preserves_tag_fields_witness :
    ∃ r : Dict,
      latest_release ⟨false, J.s "err"⟩
        (some [J.obj [("name", "2.0"), ("commit", "abc123")]]) = .ok (some (.obj r)) ∧
      r = [("name", "2.0"), ("commit", "abc123")] ++ [("tag_name", "2.0")] ∧
      (∀ k, k ≠ "tag_name" →
        lookup r k = lookup [("name", "2.0"), ("commit", "abc123")] k) ∧
      lookup r "tag_name" = some "2.0" ∧
      keys r = keys [("name", "2.0"), ("commit", "abc123")] ++ ["tag_name"] ∧
      lookup r "tarball_url" = lookup [("name", "2.0"), ("commit", "abc123")] "tarball_url" :=
  fallback_release_preserves_tag_fields ⟨false, J.s "err"⟩
    (some [J.obj [("name", "2.0"), ("commit", "abc123")]])
    [("name", "2.0"), ("commit", "abc123")] "2.0" rfl (by decide) (by decide) (by decide)

/-- C4: contrary to the claim, requesting tarball output against a
tag-derived fallback record does not yield an empty value: the
subscript access raises an uncaught `KeyError`, because the synthesized
record has no tarball_url field. -/
theorem main_tarball_keyerror_on_tag_fallback :
    main' true ⟨false, J.obj []⟩ (some [J.obj [("name", "1.0")]]) = .exn "KeyError" ∧
    main' false ⟨false, J.obj []⟩ (some [J.obj [("name", "1.0")]]) = .ok (some "1.0", 0) :=
  ⟨by decide, by decide⟩

/-! ## R-prefixed names and the lexicographic order

Every ASCII-digit-leading name sorts below every R-prefixed name, but
Python's `\d` also accepts non-ASCII decimal digits, all of which lie
above `R` in code-point order — so R-prefixed candidates dominate only
the ASCII-digit-leading ones. -/

theorem ascii_digit_lt_R (c : Char) (h : isAsciiDigit c = true) : c < 'R' := by
  simp only [isAsciiDigit, decide_eq_true_eq] at h
  have h9 : c.toNat < Char.toNat 'R' := by
    have hR : Char.toNat 'R' = 82 := by decide
    omega
  rw [Char.lt_def, UInt32.lt_def, BitVec.lt_def]
  exact h9

/-- Arabic-Indic digits ٣ and ١ (U+0663, U+0661): matched by the
pattern's `\d`, and above `R` (U+0052) in code-point order. -/
def tagsUni : List J := [J.obj [("name", "R9-9")], J.obj [("name", "٣-١")]]

/-- C10 counterexample: with candidates R9-9 and ٣-١ (Arabic-Indic
digits, which Python's `\d` accepts in a `str` pattern), the selection
returns the digit-leading tag ٣-١ even though an R-prefixed
version-like candidate is present, because non-ASCII decimal digits
exceed `R` in code-point order — refuting the claim that the selected
name never starts with a digit. -/
theorem r_prefixed_tags_counterexample :
    (matchesVersion "R9-9" = true) ∧
    ("R9-9".data.head? = some 'R') ∧
    (matchesVersion "٣-١" = true) ∧
    ("٣-١".data.head? = some '٣') ∧
    (pyIsDigit '٣' = true) ∧
    get_latest_tag (some tagsUni) = .ok (some (J.obj [("name", "٣-١")])) :=
  ⟨by decide, by decide, by decide, by decide, by decide, by decide⟩

/-- C10 (amended): if at least one tag name matches the version pattern
and starts with the letter R, the tag selected by `get_latest_tag`
never has a name starting with an ASCII digit 0-9, because every
R-prefixed version-like name exceeds every ASCII-digit-leading one in
the code-point lexicographic order used for selection.  (Names starting
with a non-ASCII decimal digit are not dominated and can still win.) -/
theorem r_prefixed_tags_dominate_ascii (tags : List J) (names : List String) (n0 : String)
    (hn : pyTagNames tags = .ok names)
    (hmem : n0 ∈ names) (hn0v : matchesVersion n0 = true)
    (hn0R : n0.data.head? = some 'R') :
    ∃ t m, get_latest_tag (some tags) = .ok (some t) ∧
      pyField t "name" = .ok m ∧
      ∀ c, m.data.head? = some c → isAsciiDigit c = false := by
  have hn0f : n0 ∈ names.filter matchesVersion := List.mem_filter.mpr ⟨hmem, hn0v⟩
  have hne : names.filter matchesVersion ≠ [] := by
    intro hnil
    rw [hnil] at hn0f
    exact absurd hn0f (List.not_mem_nil n0)
  obtain ⟨m, t, l1, l2, hmf, hmax, hres, hsplit, hname, hbef⟩ :=
    latest_tag_selection tags names hn hne
  have hle : n0.data ≤ m.data := hmax n0 hn0f
  obtain ⟨ds, hn0d⟩ : ∃ ds, n0.data = 'R' :: ds := by
    cases h0 : n0.data with
    | nil =>
      rw [h0] at hn0R
      simp at hn0R
    | cons d ds =>
      rw [h0] at hn0R
      simp only [List.head?_cons, Option.some.injEq] at hn0R
      exact ⟨ds, by rw [hn0R]⟩
  refine ⟨t, m, hres, hname, ?_⟩
  intro c hc
  cases hd : isAsciiDigit c with
  | false => rfl
  | true =>
    exfalso
    obtain ⟨cs, hm⟩ : ∃ cs, m.data = c :: cs := by
      cases hmd : m.data with
      | nil =>
        rw [hmd] at hc
        simp at hc
      | cons x xs =>
        rw [hmd] at hc
        simp only [List.head?_cons, Option.some.injEq] at hc
        exact ⟨xs, by rw [hc]⟩
    have hlt : m.data < n0.data := by
      rw [hm, hn0d]
      exact List.Lex.rel (ascii_digit_lt_R c hd)
    exact absurd (lt_of_le_of_lt hle hlt) (lt_irrefl n0.data)

/-- Tags 9.0 and R3-2: the R-tag must win over the ASCII-digit tag. -/
def tagsR : List J := [J.obj [("name", "9.0")], J.obj [("name", "R3-2")]]

/-- C10 witness: with candidates 9.0 and R3-2 the selected tag is R3-2,
whose name does not start with an ASCII digit. -/
theorem r_prefixed_tags_dominate_ascii_witness :
    (pyTagNames tagsR = .ok ["9.0", "R3-2"]) ∧
    ("R3-2" ∈ ["9.0", "R3-2"]) ∧
    (matchesVersion "R3-2" = true) ∧
    ("R3-2".data.head? = some 'R') ∧
    (∃ t m, get_latest_tag (some tagsR) = .ok (some t) ∧
      pyField t "name" = .ok m ∧
      ∀ c, m.data.head? = some c → isAsciiDigit c = false) ∧
    get_latest_tag (some tagsR) = .ok (some (J.obj [("name", "R3-2")])) :=
  ⟨by decide, by decide, by decide, by decide,
   r_prefixed_tags_dominate_ascii tagsR ["9.0", "R3-2"] "R3-2"
     (by decide) (by decide) (by decide) (by decide),
   by decide⟩

/-! ## Credential parsing -/

theorem splitColon_no_colon (l : List Char) (h : ':' ∉ l) : splitColon l = [l] := by
  induction l with
  | nil => rfl
  | cons c cs ih =>
    simp only [List.mem_cons] at h
    push_neg at h
    have hc : ¬ c = ':' := fun hh => h.1 hh.symm
    simp [splitColon, ih h.2, hc]

theorem splitColon_pair (u s : List Char) (hu : ':' ∉ u) (hs : ':' ∉ s) :
    splitColon (u ++ ':' :: s) = [u, s] := by
  induction u with
  | nil => simp [splitColon, splitColon_no_colon s hs]
  | cons c cs ih =>
    simp only [List.mem_cons] at hu
    push_neg at hu
    have hc : ¬ c = ':' := fun hh => hu.1 hh.symm
    rw [List.cons_append]
    simp [splitColon, ih hu.2, hc]

/-- C9: a present credential environment value of the form
username:secret (neither part containing a colon) parses to exactly the
pair of username and secret, and an absent value yields no credential
(unauthenticated requests). -/
theorem github_auth_parses_colon_pair :
    (GITHUB_AUTH none = none) ∧
    ∀ u s : String, ':' ∉ u.data → ':' ∉ s.data →
      GITHUB_AUTH (some (u ++ ":" ++ s)) = some [u, s] := by
  refine ⟨rfl, ?_⟩
  intro u s hu hs
  have hdata : (u ++ ":" ++ s).data = u.data ++ ':' :: s.data := by
    rw [String.data_append, String.data_append, List.append_assoc]
    rfl
  simp only [GITHUB_AUTH, hdata, splitColon_pair u.data s.data hu hs, List.map]

/-- C9 witness: octocat:ghp_token123 parses to the expected pair. -/
theorem github_auth_parses_colon_pair_witness :
    (':' ∉ "octocat".data) ∧ (':' ∉ "ghp_token123".data) ∧
    GITHUB_AUTH (some ("octocat" ++ ":" ++ "ghp_token123")) =
      some ["octocat", "ghp_token123"] :=
  ⟨by decide, by decide,
   github_auth_parses_colon_pair.2 "octocat" "ghp_token123" (by decide) (by decide)⟩

/-! ## The spec's strict version pattern versus the code's regex

The specification words the pattern as matching "with nothing before or
after".  Python's `$` anchor, however, also matches immediately before a
single newline that ends the string, so the code additionally accepts
names with one trailing newline.  The definitions below state the
spec-worded (strictly anchored) pattern and relate it to the code's. -/

/-- Modelled from the spec: the tail of the strictly anchored pattern —
the optional separator-digits group followed by the true end of the
string (no trailing newline allowance). -/
def strictTail (l : List Char) : Bool :=
  if l.isEmpty then true
  else
    match matchSep l with
    | none => false
    | some l1 =>
      match matchNum l1 with
      | none => false
      | some l2 => l2.isEmpty

/-- Modelled from the spec: optional leading R, digits, separator,
digits, optional separator-digits group, with nothing before or after. -/
def strictVer (l : List Char) : Bool :=
  match afterMandatory l with
  | none => false
  | some r => strictTail r

def specVersionPattern (s : String) : Bool := strictVer s.data

/-- Remove one trailing newline, if present. -/
def stripNLChars (l : List Char) : List Char :=
  if l.getLast? = some '\n' then l.dropLast else l

def stripTrailingNL (s : String) : String := String.mk (stripNLChars s.data)

theorem dropDigits_append_nl (l : List Char) :
    dropDigits (l ++ ['\n']) = dropDigits l ++ ['\n'] := by
  induction l with
  | nil => decide
  | cons c cs ih =>
    rw [List.cons_append, dropDigits, dropDigits]
    cases hd : pyIsDigit c with
    | true =>
      rw [if_pos rfl, if_pos rfl, ih]
    | false =>
      rw [if_neg Bool.false_ne_true, if_neg Bool.false_ne_true, List.cons_append]

theorem matchNum_append_nl (l : List Char) :
    matchNum (l ++ ['\n']) = (matchNum l).map (fun r => r ++ ['\n']) := by
  cases l with
  | nil => decide
  | cons c cs =>
    rw [List.cons_append, matchNum, matchNum]
    cases hd : pyIsDigit c with
    | true =>
      rw [if_pos rfl, if_pos rfl, dropDigits_append_nl]
      rfl
    | false =>
      rw [if_neg Bool.false_ne_true, if_neg Bool.false_ne_true]
      rfl

theorem matchSep_append_nl (l : List Char) :
    matchSep (l ++ ['\n']) = (matchSep l).map (fun r => r ++ ['\n']) := by
  cases l with
  | nil => decide
  | cons c cs =>
    rw [List.cons_append, matchSep, matchSep]
    cases hs : (c = '-' || c = '.' : Bool) with
    | true =>
      rw [if_pos rfl, if_pos rfl]
      rfl
    | false =>
      rw [if_neg Bool.false_ne_true, if_neg Bool.false_ne_true]
      rfl

theorem stripR_append_nl (l : List Char) :
    stripR (l ++ ['\n']) = stripR l ++ ['\n'] := by
  cases l with
  | nil => decide
  | cons c cs =>
    rw [List.cons_append, stripR, stripR]
    by_cases hc : c = 'R'
    · rw [if_pos hc, if_pos hc]
    · rw [if_neg hc, if_neg hc, List.cons_append]

theorem afterMandatory_append_nl (l : List Char) :
    afterMandatory (l ++ ['\n']) = (afterMandatory l).map (fun r => r ++ ['\n']) := by
  rw [afterMandatory, afterMandatory, stripR_append_nl, matchNum_append_nl]
  cases hn : matchNum (stripR l) with
  | none => rfl
  | some l2 =>
    simp only [Option.map_some', Option.some_bind]
    rw [matchSep_append_nl]
    cases hs : matchSep l2 with
    | none => rfl
    | some l3 =>
      simp only [Option.map_some', Option.some_bind]
      exact matchNum_append_nl l3

theorem pyEnd_append_nl (l : List Char) : pyEnd (l ++ ['\n']) = l.isEmpty := by
  cases l with
  | nil => decide
  | cons c cs =>
    cases cs with
    | nil => rfl
    | cons c2 cs2 => rfl

theorem matchTail_append_nl (r : List Char) : matchTail (r ++ ['\n']) = strictTail r := by
  rw [matchTail, strictTail, pyEnd_append_nl]
  by_cases he : r.isEmpty
  · rw [if_pos he, if_pos he]
  · rw [if_neg he, if_neg he, matchSep_append_nl]
    cases hs : matchSep r with
    | none => rfl
    | some l1 =>
      simp only [Option.map_some']
      rw [matchNum_append_nl]
      cases hn : matchNum l1 with
      | none => rfl
      | some l2 =>
        simp only [Option.map_some']
        exact pyEnd_append_nl l2

theorem matchVer_append_nl (l : List Char) : matchVer (l ++ ['\n']) = strictVer l := by
  rw [matchVer, strictVer, afterMandatory_append_nl]
  cases ha : afterMandatory l with
  | none => rfl
  | some r =>
    simp only [Option.map_some']
    exact matchTail_append_nl r

theorem dropDigits_suffix (l : List Char) : dropDigits l <:+ l := by
  induction l with
  | nil => exact List.suffix_refl []
  | cons c cs ih =>
    rw [dropDigits]
    cases hd : pyIsDigit c with
    | true =>
      rw [if_pos rfl]
      exact ih.trans (List.suffix_cons c cs)
    | false =>
      rw [if_neg Bool.false_ne_true]

theorem matchNum_suffix (l r : List Char) (h : matchNum l = some r) : r <:+ l := by
  cases l with
  | nil => simp [matchNum] at h
  | cons c cs =>
    rw [matchNum] at h
    cases hd : pyIsDigit c with
    | true =>
      rw [if_pos (by rw [hd])] at h
      injection h with h
      rw [← h]
      exact (dropDigits_suffix cs).trans (List.suffix_cons c cs)
    | false =>
      rw [if_neg (by rw [hd]; exact Bool.false_ne_true)] at h
      exact absurd h (by simp)

theorem matchSep_suffix (l r : List Char) (h : matchSep l = some r) : r <:+ l := by
  cases l with
  | nil => simp [matchSep] at h
  | cons c cs =>
    rw [matchSep] at h
    by_cases hc : (c = '-' || c = '.') = true
    · rw [if_pos hc] at h
      injection h with h
      rw [← h]
      exact List.suffix_cons c cs
    · rw [if_neg hc] at h
      exact absurd h (by simp)

theorem stripR_suffix (l : List Char) : stripR l <:+ l := by
  cases l with
  | nil => exact List.suffix_refl []
  | cons c cs =>
    rw [stripR]
    by_cases hc : c = 'R'
    · rw [if_pos hc]
      exact List.suffix_cons c cs
    · rw [if_neg hc]

theorem afterMandatory_suffix (l r : List Char) (h : afterMandatory l = some r) : r <:+ l := by
  rw [afterMandatory] at h
  cases h1 : matchNum (stripR l) with
  | none => rw [h1] at h; exact absurd h (by simp)
  | some l2 =>
    rw [h1] at h
    simp only [Option.some_bind] at h
    cases h2 : matchSep l2 with
    | none => rw [h2] at h; exact absurd h (by simp)
    | some l3 =>
      rw [h2] at h
      simp only [Option.some_bind] at h
      have s3 : r <:+ l3 := matchNum_suffix l3 r h
      have s2 : l3 <:+ l2 := matchSep_suffix l2 l3 h2
      have s1 : l2 <:+ stripR l := matchNum_suffix (stripR l) l2 h1
      exact ((s3.trans s2).trans s1).trans (stripR_suffix l)

theorem suffix_getLast (l x : List Char) (h : x <:+ l) (c : Char)
    (hx : x.getLast? = some c) : l.getLast? = some c := by
  obtain ⟨w, rfl⟩ := h
  rw [List.getLast?_append, hx]
  rfl

theorem pyEnd_of_suffix (l r : List Char) (hsuf : r <:+ l)
    (hl : l.getLast? ≠ some '\n') : pyEnd r = r.isEmpty := by
  cases r with
  | nil => rfl
  | cons c cs =>
    cases cs with
    | nil =>
      have hc : ¬ c = '\n' := by
        intro hc
        subst hc
        exact hl (suffix_getLast l ['\n'] hsuf '\n' rfl)
      simp [pyEnd, hc]
    | cons c2 cs2 => rfl

theorem matchTail_of_suffix (l r : List Char) (hsuf : r <:+ l)
    (hl : l.getLast? ≠ some '\n') : matchTail r = strictTail r := by
  rw [matchTail, strictTail, pyEnd_of_suffix l r hsuf hl]
  by_cases he : r.isEmpty
  · rw [if_pos he, if_pos he]
  · rw [if_neg he, if_neg he]
    cases hs : matchSep r with
    | none => rfl
    | some l1 =>
      show (match matchNum l1 with
        | none => false
        | some l2 => pyEnd l2) =
        (match matchNum l1 with
        | none => false
        | some l2 => l2.isEmpty)
      cases hn : matchNum l1 with
      | none => rfl
      | some l2 =>
        have h1 : l1 <:+ l := (matchSep_suffix r l1 hs).trans hsuf
        have h2 : l2 <:+ l := (matchNum_suffix l1 l2 hn).trans h1
        exact pyEnd_of_suffix l l2 h2 hl

/-- The code's pattern equals the spec's strictly anchored pattern after
removing a single trailing newline. -/
theorem matchVer_eq_strict (l : List Char) : matchVer l = strictVer (stripNLChars l) := by
  by_cases hnl : l.getLast? = some '\n'
  · have hne : l ≠ [] := by
      intro h
      rw [h] at hnl
      simp at hnl
    have hg : l.getLast hne = '\n' := by
      have h := List.getLast?_eq_getLast l hne
      rw [hnl] at h
      injection h with h
      exact h.symm
    have hdecomp : l.dropLast ++ ['\n'] = l := by
      have h := List.dropLast_concat_getLast hne
      rw [hg] at h
      exact h
    rw [stripNLChars, if_pos hnl]
    calc matchVer l = matchVer (l.dropLast ++ ['\n']) := by rw [hdecomp]
      _ = strictVer l.dropLast := matchVer_append_nl l.dropLast
  · rw [stripNLChars, if_neg hnl]
    rw [matchVer, strictVer]
    cases ha : afterMandatory l with
    | none => rfl
    | some r =>
      exact matchTail_of_suffix l r (afterMandatory_suffix l r ha) hnl

theorem pyTagNames_append (a b : List J) :
    pyTagNames (a ++ b) = (pyTagNames a).bind fun na => (pyTagNames b).map fun nb => na ++ nb := by
  induction a with
  | nil =>
    cases hb : pyTagNames b <;> simp [pyTagNames, PyResult.bind, PyResult.map, hb]
  | cons t ts ih =>
    rw [List.cons_append]
    cases hf : pyField t "name" with
    | exn e => simp [pyTagNames, hf, PyResult.bind]
    | ok n =>
      simp only [pyTagNames, hf, ih]
      cases hts : pyTagNames ts with
      | exn e => simp [PyResult.bind, PyResult.map]
      | ok ns =>
        cases hb : pyTagNames b with
        | exn e => simp [PyResult.bind, PyResult.map]
        | ok nb => simp [PyResult.bind, PyResult.map]

theorem findTag_skip (a b : List J) (t : J) (n k : String)
    (hf : pyField t "name" = .ok n) (hne : n ≠ k) :
    findTagWithName k (a ++ t :: b) = findTagWithName k (a ++ b) := by
  induction a with
  | nil => simp [findTagWithName, hf, hne]
  | cons a0 as ih =>
    rw [List.cons_append, List.cons_append]
    simp only [findTagWithName]
    cases hf0 : pyField a0 "name" with
    | exn e => rfl
    | ok m =>
      by_cases hm : m = k
      · simp [hm]
      · simp [hm, ih]

theorem get_latest_tag_skip (l1 l2 : List J) (t : J) (n : String)
    (hf : pyField t "name" = .ok n) (hv : matchesVersion n = false) :
    get_latest_tag (some (l1 ++ t :: l2)) = get_latest_tag (some (l1 ++ l2)) := by
  simp only [get_latest_tag]
  rw [pyTagNames_append, pyTagNames_append]
  have ht : pyTagNames (t :: l2) = (pyTagNames l2).map fun ns => n :: ns := by
    simp [pyTagNames, hf]
  rw [ht]
  cases h1 : pyTagNames l1 with
  | exn e => rfl
  | ok na =>
    cases h2 : pyTagNames l2 with
    | exn e => rfl
    | ok nb =>
      simp only [PyResult.bind, PyResult.map]
      have hfilt : (na ++ n :: nb).filter matchesVersion =
          (na ++ nb).filter matchesVersion := by
        simp [List.filter_append, List.filter_cons, hv]
      rw [hfilt]
      cases hs : sortDesc ((na ++ nb).filter matchesVersion) with
      | nil => rfl
      | cons latest rest =>
        have hlmem : latest ∈ (na ++ nb).filter matchesVersion := by
          rw [← mem_sortDesc, hs]
          simp
        have hlv : matchesVersion latest = true := (List.mem_filter.mp hlmem).2
        have hne : n ≠ latest := by
          intro he
          rw [← he] at hlv
          rw [hv] at hlv
          exact Bool.false_ne_true hlv
        exact findTag_skip l1 l2 t n latest hf hne

/-- C5 counterexample: the name 9.9 followed by a newline does not match
the spec's strictly anchored pattern ("nothing before or after"), yet
the code accepts it (Python's dollar anchor also matches before one
final newline) and it even wins the selection — so a name with a
trailing extra character does become a candidate and does influence the
result, refuting the claim as stated. -/
theorem version_pattern_strict_counterexample :
    specVersionPattern "9.9\n" = false ∧
    matchesVersion "9.9\n" = true ∧
    get_latest_tag (some [J.obj [("name", "9.9\n")], J.obj [("name", "1.0")]]) =
      .ok (some (J.obj [("name", "9.9\n")])) :=
  ⟨by decide, by decide, by decide⟩

/-- C5 (amended): a tag is a selection candidate exactly when its name
matches the spec's pattern after removing at most one trailing newline
(the only deviation Python's dollar anchor allows); tags whose names
fail the code's pattern are discarded and never influence the selected
result (removing such a tag leaves the outcome unchanged). -/
theorem version_filter_amended :
    (∀ s : String, matchesVersion s = specVersionPattern (stripTrailingNL s)) ∧
    (∀ (l1 l2 : List J) (t : J) (n : String),
      pyField t "name" = .ok n → matchesVersion n = false →
      get_latest_tag (some (l1 ++ t :: l2)) = get_latest_tag (some (l1 ++ l2))) :=
  ⟨fun s => matchVer_eq_strict s.data, get_latest_tag_skip⟩

/-- C5 witness: the pattern equivalence evaluated at a newline-ended
name, and the discard property exercised by deleting a nightly tag. -/
theorem version_filter_amended_witness :
    (matchesVersion "1.0\n" = specVersionPattern (stripTrailingNL "1.0\n")) ∧
    (pyField (J.obj [("name", "nightly")]) "name" = .ok "nightly") ∧
    (matchesVersion "nightly" = false) ∧
    get_latest_tag (some ([J.obj [("name", "1.0")]] ++ J.obj [("name", "nightly")] ::
        [J.obj [("name", "2.0")]])) =
      get_latest_tag (some ([J.obj [("name", "1.0")]] ++ [J.obj [("name", "2.0")]])) :=
  ⟨version_filter_amended.1 "1.0\n", by decide, by decide,
   version_filter_amended.2 [J.obj [("name", "1.0")]] [J.obj [("name", "2.0")]]
     (J.obj [("name", "nightly")]) "nightly" (by decide) (by decide)⟩
